import Mathlib

/-!
Verification of the `SizedLRUMapping` cache engine
(`src/relstorage/cache/mapping.py`).

The engine keeps a primary index (`self._dict`, a Python dict from key to
entry object) and three generation rings (eden, probation, protected) of
shared entry objects.  Keys and values are opaque to the engine; we model
both as `Nat`.  The ring data structure itself (`relstorage.cache.cache_ring`)
is not part of the sources, so its operations (`add_MRU`, `add_MRUs`,
`on_hit`, `update_MRU`, `age_lists`) are modelled from the specification,
as noted on each definition.  Everything in `mapping.py` itself is
translated statement by statement.

Rings are represented as lists in LRU-to-MRU order (the iteration order the
specification fixes for export), so `add_MRU` is appending at the end.
Python dictionaries are modelled as association lists with
insertion-ordered update semantics (`alget` / `alset`).
-/

/-- Which generation ring currently owns an entry
(`entry.cffi_entry.r_parent` in the source). -/
inductive Gen
| eden
| probation
| prot
deriving DecidableEq

/-- A cache entry: key, value, byte weight (`entry.len` in the source) and
frequency counter.  The `gen` field is the parent-ring tag. -/
structure Entry where
  key : Nat
  value : Nat
  len : Nat
  frequency : Nat
  gen : Gen
deriving DecidableEq

/-- Association-list lookup, modelling Python `dict.get` /`in`. -/
def alget {α : Type} : List (Nat × α) → Nat → Option α
  | [], _ => none
  | p :: ps, k => if p.1 = k then some p.2 else alget ps k

/-- Association-list insert/update, modelling Python `d[k] = v`
(updates in place, appends new keys at the end). -/
def alset {α : Type} : List (Nat × α) → Nat → α → List (Nat × α)
  | [], k, v => [(k, v)]
  | p :: ps, k, v => if p.1 = k then (k, v) :: ps else p :: alset ps k v

/-- The engine state: the three rings, the index, the statistics counters
and the ageing schedule, exactly the attributes set up in
`SizedLRUMapping.__init__` (plus the class attribute `_aged_at`). -/
structure SizedLRUMapping where
  edenRing : List Entry
  probRing : List Entry
  protRing : List Entry
  dict : List (Nat × Entry)
  hits : Nat
  misses : Nat
  sets : Nat
  aged_at : Nat
  next_age_at : Nat
  limit : Nat
deriving DecidableEq

/-- `SizedLRUMapping.__init__(limit)`: empty rings and index, zero
counters, `_aged_at = 0` (class attribute), `_next_age_at = 1000`. -/
def init (limit : Nat) : SizedLRUMapping :=
  { edenRing := [], probRing := [], protRing := [], dict := []
    hits := 0, misses := 0, sets := 0
    aged_at := 0, next_age_at := 1000, limit := limit }

/-- `reset_stats`: zero `_hits`, `_misses`, `_sets`, `_aged_at` and set
`_next_age_at` to 0. -/
def reset_stats (s : SizedLRUMapping) : SizedLRUMapping :=
  { s with hits := 0, misses := 0, sets := 0, aged_at := 0, next_age_at := 0 }

/-- Summed weight of a ring (`ring.size`; invariant (I2) of the spec makes
it the sum of member weights). -/
def ringSize (r : List Entry) : Nat := (r.map (fun e => e.len)).sum

/-- The `size` property: `self._eden.size + self._protected.size +
self._probation.size`. -/
def size (s : SizedLRUMapping) : Nat :=
  ringSize s.edenRing + ringSize s.protRing + ringSize s.probRing

/-- `self._age_factor` (class attribute, 10). -/
def age_factor : Nat := 10

/-- Halve an entry's frequency.  Modelled from the spec: ageing
right-shifts every frequency counter by one. -/
def halveEntry (e : Entry) : Entry := { e with frequency := e.frequency / 2 }

/-- Modelled from the spec: `self._cache.age_lists()` (in the missing
`cache_ring` module) halves every entry's frequency counter, in the rings
and in the shared index entries. -/
def age_lists (s : SizedLRUMapping) : SizedLRUMapping :=
  { s with
    edenRing := s.edenRing.map halveEntry
    probRing := s.probRing.map halveEntry
    protRing := s.protRing.map halveEntry
    dict := s.dict.map (fun p => (p.1, halveEntry p.2)) }

/-- `SizedLRUMapping._age`: compute `age_period = _age_factor * len(dict)`
and `operations = _hits + _sets`; if `operations - _aged_at < age_period`
set `_next_age_at = age_period` and return; if `size < limit` return with
nothing changed; otherwise set `_aged_at = operations`, age all lists and
set `_next_age_at = int(_aged_at * 1.5)` (floor of 1.5 times; the Python
`int()` truncates the exact float product, which is `operations * 3 / 2`
in integer arithmetic).  The comparison is on Python integers, hence `Int`
here. -/
def _age (s : SizedLRUMapping) : SizedLRUMapping :=
  if (((s.hits + s.sets : Nat) : Int) - (s.aged_at : Int)
      < ((age_factor * s.dict.length : Nat) : Int)) then
    { s with next_age_at := age_factor * s.dict.length }
  else if size s < s.limit then
    s
  else
    { age_lists s with
      aged_at := s.hits + s.sets
      next_age_at := (s.hits + s.sets) * 3 / 2 }

/-- Frequency ceiling.  Modelled from the spec: the frequency counter is a
saturating counter capped at an implementation-chosen ceiling of at least
15; we fix the ceiling at 15. -/
def freq_cap : Nat := 15

/-- Saturating frequency increment (spec: clamp-increment). -/
def clampInc (f : Nat) : Nat := if f < freq_cap then f + 1 else f

/-- Remove the (first) entry with the given key from a ring: unlinking the
node in the intrusive list. -/
def ringRemove : List Entry → Nat → List Entry
  | [], _ => []
  | e :: es, k => if e.key = k then es else e :: ringRemove es k

/-- Modelled from the spec: `gens[entry.cffi_entry.r_parent].on_hit(entry)`
moves the entry to the MRU end of its ring and clamp-increments its
frequency; a hit on a probation entry additionally promotes it to
protected (`probation.remove(e); protected.add_MRU(e)`).  The
budget-driven demotion cascade after a promotion is not modelled: no
claim settled here depends on the per-ring byte budgets. -/
def on_hit (s : SizedLRUMapping) (k : Nat) : SizedLRUMapping :=
  match alget s.dict k with
  | none => s
  | some e =>
    match e.gen with
    | Gen.eden =>
      let e' := { e with frequency := clampInc e.frequency }
      { s with edenRing := ringRemove s.edenRing k ++ [e'],
               dict := alset s.dict k e' }
    | Gen.prot =>
      let e' := { e with frequency := clampInc e.frequency }
      { s with protRing := ringRemove s.protRing k ++ [e'],
               dict := alset s.dict k e' }
    | Gen.probation =>
      let e' := { e with frequency := clampInc e.frequency, gen := Gen.prot }
      { s with probRing := ringRemove s.probRing k,
               protRing := s.protRing ++ [e'],
               dict := alset s.dict k e' }

/-- Modelled from the spec:
`gens[entry.cffi_entry.r_parent].update_MRU(entry, value)` replaces the
value, refreshes the weight, moves the entry to the MRU end of its own
ring and clamp-increments its frequency.  `wt` is the freshly computed
weight of the new value (the weight function is an external collaborator
of the engine). -/
def update_MRU (s : SizedLRUMapping) (k v wt : Nat) : SizedLRUMapping :=
  match alget s.dict k with
  | none => s
  | some e =>
    let e' := { e with value := v, len := wt, frequency := clampInc e.frequency }
    match e.gen with
    | Gen.eden =>
      { s with edenRing := ringRemove s.edenRing k ++ [e'],
               dict := alset s.dict k e' }
    | Gen.probation =>
      { s with probRing := ringRemove s.probRing k ++ [e'],
               dict := alset s.dict k e' }
    | Gen.prot =>
      { s with protRing := ringRemove s.protRing k ++ [e'],
               dict := alset s.dict k e' }

/-- The mutating part of `__setitem__` before the ageing check: on a
present key, `update_MRU`; otherwise create the entry with frequency 1 via
`self._eden.add_MRU(key, value)` and store it in the index; then
`self._sets += 1`.  `w` is the caller-supplied weight function. -/
def setItemCore (w : Nat → Nat → Nat) (s : SizedLRUMapping) (k v : Nat) :
    SizedLRUMapping :=
  match alget s.dict k with
  | some _ =>
    let s1 := update_MRU s k v (w k v)
    { s1 with sets := s1.sets + 1 }
  | none =>
    let e : Entry := { key := k, value := v, len := w k v, frequency := 1, gen := Gen.eden }
    { s with edenRing := s.edenRing ++ [e],
             dict := alset s.dict k e,
             sets := s.sets + 1 }

/-- The inlined ageing check of `__setitem__`:
`self._hits + self._sets > self._next_age_at`, evaluated after the set. -/
def set_consults_age (w : Nat → Nat → Nat) (s : SizedLRUMapping) (k v : Nat) : Bool :=
  decide ((setItemCore w s k v).hits + (setItemCore w s k v).sets
          > (setItemCore w s k v).next_age_at)

/-- `SizedLRUMapping.__setitem__`: the core mutation followed by the
ageing check, which calls `_age` when it fires. -/
def setItem (w : Nat → Nat → Nat) (s : SizedLRUMapping) (k v : Nat) :
    SizedLRUMapping :=
  let t := setItemCore w s k v
  if set_consults_age w s k v then _age t else t

/-- `SizedLRUMapping.get`: `self._dict.get(key)` and, when present, the
entry's value.  No state is touched (the source body only reads). -/
def SizedLRUMapping.get (s : SizedLRUMapping) (k : Nat) :
    Option Nat × SizedLRUMapping :=
  ((alget s.dict k).map (fun e => e.value), s)

/-- Replace the entry object with the given key inside a ring in place
(no reordering): the Python-level aliasing of a dict entry and its ring
node. -/
def ringReplace (r : List Entry) (k : Nat) (e' : Entry) : List Entry :=
  r.map (fun x => if x.key = k then e' else x)

/-- Python errors surfaced by the translated code paths. -/
inductive PyErr
| valueError
| assertionError
| typeError
| attributeError
| keyError
deriving DecidableEq

/-- `SizedLRUMapping.__getitem__`: look the key up in the index (a missing
key raises `KeyError`), increment the entry's frequency by one — without
clamping and without any ring movement — and return the value.  The
frequency bump is visible through the index and through the entry's ring
node (they alias the same object). -/
def getItem (s : SizedLRUMapping) (k : Nat) :
    Except PyErr (Nat × SizedLRUMapping) :=
  match alget s.dict k with
  | none => Except.error PyErr.keyError
  | some e =>
    let e' := { e with frequency := e.frequency + 1 }
    let s' :=
      match e.gen with
      | Gen.eden => { s with edenRing := ringReplace s.edenRing k e',
                             dict := alset s.dict k e' }
      | Gen.probation => { s with probRing := ringReplace s.probRing k e',
                                  dict := alset s.dict k e' }
      | Gen.prot => { s with protRing := ringReplace s.protRing k e',
                             dict := alset s.dict k e' }
    Except.ok (e.value, s')

/-- The loop of `get_and_bubble_all`: for each key in order, look it up;
on a hit record `res[key] = entry.value` and bubble the entry via
`on_hit`. -/
def gab_go : List Nat → List (Nat × Nat) → SizedLRUMapping →
    List (Nat × Nat) × SizedLRUMapping
  | [], res, s => (res, s)
  | k :: ks, res, s =>
    match alget s.dict k with
    | some e => gab_go ks (alset res k e.value) (on_hit s k)
    | none => gab_go ks res s

/-- `SizedLRUMapping.get_and_bubble_all(keys)`: run the loop, then count
the whole call as one hit if `res` is non-empty, else as one miss. -/
def get_and_bubble_all (s : SizedLRUMapping) (keys : List Nat) :
    List (Nat × Nat) × SizedLRUMapping :=
  if (gab_go keys [] s).1 = [] then
    ((gab_go keys [] s).1,
     { (gab_go keys [] s).2 with misses := (gab_go keys [] s).2.misses + 1 })
  else
    ((gab_go keys [] s).1,
     { (gab_go keys [] s).2 with hits := (gab_go keys [] s).2.hits + 1 })

/-- `self._FILE_VERSION`. -/
def _FILE_VERSION : Int := 5

/-- A frame of the persistence stream: either the integer version marker
or an independently pickled `(key, value)` tuple. -/
inductive StreamFrame
| ver (n : Int)
| kv (k v : Nat)
deriving DecidableEq

/-- A cache file as the reader sees it: the leading version-marker frame
followed by the `(key, value)` frames. -/
structure CacheStream where
  version : Int
  frames : List (Nat × Nat)
deriving DecidableEq

/-- The `data()` generator inside `read_from_stream`:
`try: yield load() except EOFError: pass`.  It calls `load` once, so it
yields at most the first remaining frame; an `EOFError` (empty remainder)
yields nothing and is swallowed. -/
def data_frames : List (Nat × Nat) → List (Nat × Nat)
  | [] => []
  | f :: _ => [f]

/-- Build the eden entry for a bulk-admitted `(key, value)` pair: on
reload every admitted entry starts with frequency 1 (spec); `w` is the
external weight function. -/
def mkEdenEntry (w : Nat → Nat → Nat) (kv : Nat × Nat) : Entry :=
  { key := kv.1, value := kv.2, len := w kv.1 kv.2, frequency := 1, gen := Gen.eden }

/-- Modelled from the spec: `self._eden.add_MRUs(entries)` (in the missing
`cache_ring` module) bulk-admits the batch into eden, observably identical
to one-by-one `add_MRU`, and returns the added entries.  The budget-driven
eviction cascade is not modelled: no claim settled here depends on the
per-ring byte budgets. -/
def add_MRUs (w : Nat → Nat → Nat) (s : SizedLRUMapping)
    (kvs : List (Nat × Nat)) : List Entry × SizedLRUMapping :=
  let es := kvs.map (mkEdenEntry w)
  (es, { s with edenRing := s.edenRing ++ es })

/-- The store loop of the inner `_insert_entries` closure:
`for e in added_entries: assert e.key not in data; data[e.key] = e;
stored += 1`.  A failing assertion stops the loop; the third component is
`false` exactly when the assertion failed (an `AssertionError` in
Python). -/
def store_loop : SizedLRUMapping → Nat → List Entry →
    SizedLRUMapping × Nat × Bool
  | s, stored, [] => (s, stored, true)
  | s, stored, e :: es =>
    if (alget s.dict e.key).isSome then (s, stored, false)
    else store_loop { s with dict := alset s.dict e.key e } (stored + 1) es

/-- The filtered, reversed list `new_entries_newest_first` computed by the
non-empty branch of `_insert_entries` (source lines 294-296): the pairs
whose keys are not already in the index, reversed. -/
def new_entries_newest_first (s : SizedLRUMapping)
    (kvs : List (Nat × Nat)) : List (Nat × Nat) :=
  (kvs.filter (fun t => (alget s.dict t.1).isNone)).reverse

/-- The batch that `_insert_entries` actually hands to the bulk add: on an
empty index, the whole list; on a non-empty index the source computes
`new_entries_newest_first` but then passes the unfiltered original
`keys_and_values` to the inner insert (source line 297). -/
def admitted_batch (s : SizedLRUMapping) (kvs : List (Nat × Nat)) :
    List (Nat × Nat) :=
  if s.dict.isEmpty then kvs
  else kvs

/-- Outcome of `_insert_entries`: the `(count, stored)` pair it returns,
the resulting engine state, and whether the store loop's assertion
held. -/
structure IngestOutcome where
  examined : Nat
  stored : Nat
  state : SizedLRUMapping
  ok : Bool
deriving DecidableEq

/-- `SizedLRUMapping._insert_entries(keys_and_values, source)`:
materialize the input, count it, pick the batch (see `admitted_batch`),
bulk-add it to eden and run the store loop; return
`(count, stored)`. -/
def _insert_entries (w : Nat → Nat → Nat) (s : SizedLRUMapping)
    (keys_and_values : List (Nat × Nat)) : IngestOutcome :=
  let count := keys_and_values.length
  let batch := admitted_batch s keys_and_values
  let r1 := add_MRUs w s batch
  let r2 := store_loop r1.2 0 r1.1
  { examined := count, stored := r2.2.1, state := r2.1, ok := r2.2.2 }

/-- `SizedLRUMapping.read_from_stream(cache_file)`: load the version
marker; on a mismatch raise `ValueError` before touching anything;
otherwise feed the frames the `data()` generator yields (see
`data_frames`) to `_insert_entries` and return its `(examined, stored)`
counts.  The second component is the engine state after the call. -/
def read_from_stream (w : Nat → Nat → Nat) (s : SizedLRUMapping)
    (f : CacheStream) : Except PyErr (Nat × Nat) × SizedLRUMapping :=
  if f.version = _FILE_VERSION then
    let r := _insert_entries w s (data_frames f.frames)
    (if r.ok then Except.ok (r.examined, r.stored)
     else Except.error PyErr.assertionError, r.state)
  else (Except.error PyErr.valueError, s)

/-- Ascending-frequency comparison used by the export sort
(`key=operator.attrgetter('cffi_entry.frequency')`). -/
def freqLe (a b : Entry) : Prop := a.frequency ≤ b.frequency

instance : DecidableRel freqLe := fun a b => Nat.decLe a.frequency b.frequency

instance : IsTotal Entry freqLe := ⟨fun a b => Nat.le_total a.frequency b.frequency⟩

instance : IsTrans Entry freqLe := ⟨fun _ _ _ h1 h2 => Nat.le_trans h1 h2⟩

/-- The byte-limited walk of `_get_entries_to_write`: over the sorted
entries taken from the highest-frequency end, accumulate
`bytes_written += entry.len`, break just before exceeding the limit, and
collect the entries that fit. -/
def take_under_limit (b : Nat) : Nat → List Entry → List Entry
  | _, [] => []
  | acc, e :: es =>
    if b < acc + e.len then []
    else e :: take_under_limit b (acc + e.len) es

/-- `SizedLRUMapping._get_entries_to_write(byte_limit)`: concatenate the
rings in probation, protected, eden order; if the total ring count
disagrees with the index size, log a warning and return `None` (this is
what the source does — it raises nothing); otherwise stable-sort by
ascending frequency.  Without a byte limit (`None`, or `0`, which Python's
`if not byte_limit` also treats as absent) return the whole sorted list
with `self.limit`; with a positive byte limit walk the sorted list from
the highest-frequency end (see `take_under_limit`), reverse the collected
slice back into ascending-frequency order, and return it with the given
limit.  Python's `list.sort` is stable, as is `List.insertionSort` with a
non-strict comparison, and a stable sort by one key is unique, so the
model sort coincides with the source's. -/
def _get_entries_to_write (s : SizedLRUMapping) (byte_limit : Option Nat) :
    Option (List Entry × Nat) :=
  let entries := s.probRing ++ s.protRing ++ s.edenRing
  if entries.length ≠ s.dict.length then none
  else
    let sorted := List.insertionSort freqLe entries
    match byte_limit with
    | none => some (sorted, s.limit)
    | some b =>
      if b = 0 then some (sorted, s.limit)
      else some ((take_under_limit b 0 sorted.reverse).reverse, b)

/-- `SizedLRUMapping.write_to_stream(cache_file, byte_limit)`: the source
dumps the version marker, then binds
`entries = self._get_entries_to_write(byte_limit)` WITHOUT unpacking the
returned `(entries, byte_limit)` pair, and iterates over that value.
When the pair comes back, the first loop iteration evaluates `entry.len`
with `entry` bound to the entries *list*, raising `AttributeError` (and
`count_written`, incremented in the loop, was never initialised, so even
that statement would raise `NameError`); when the consistency check made
`_get_entries_to_write` return `None`, iterating `None` raises
`TypeError`.  Either way the call fails after emitting only the version
marker, before any `(key, value)` frame is dumped and before any count is
produced.  The first component is the frames written, the second the
failure. -/
def write_to_stream (s : SizedLRUMapping) (byte_limit : Option Nat) :
    List StreamFrame × Except PyErr Nat :=
  match _get_entries_to_write s byte_limit with
  | none => ([StreamFrame.ver _FILE_VERSION], Except.error PyErr.typeError)
  | some _ => ([StreamFrame.ver _FILE_VERSION], Except.error PyErr.attributeError)

/-- A concrete weight function for concrete evaluations (the weight
function is an external collaborator; any function works). -/
def w0 : Nat → Nat → Nat := fun _ _ => 1

/-- An entry used by the concrete example states. -/
def exEntry1 : Entry :=
  { key := 1, value := 10, len := 5, frequency := 1, gen := Gen.eden }

/-- A second entry used by the concrete example states. -/
def exEntry2 : Entry :=
  { key := 2, value := 20, len := 4, frequency := 2, gen := Gen.prot }

/-- A stream with the current version marker followed by two frames. -/
def exC1stream : CacheStream := { version := 5, frames := [(1, 10), (2, 20)] }

/-- C1: REFUTED AS WRITTEN (code bug).  The claim says `read_from_stream`
loads frames until end-of-stream and returns an examined count equal to
the number N of `(key, value)` frames.  The source's `data()` generator is
`try: yield load() except EOFError: pass`, which calls `load` exactly once
and therefore yields at most one frame.  On a stream with the current
version marker and N = 2 frames, fed to a fresh engine, the call succeeds
but examines (and stores) only 1 frame, although the stream carries 2. -/
theorem read_from_stream_examines_one_of_two :
    (read_from_stream w0 (init 100) exC1stream).1 = Except.ok (1, 1) ∧
    exC1stream.frames.length = 2 := by
  constructor <;> rfl

/-- The engine state for the C2 counterexample: key 1 is already
present. -/
def exC2state : SizedLRUMapping :=
  { edenRing := [exEntry1], probRing := [], protRing := []
    dict := [(1, exEntry1)]
    hits := 0, misses := 0, sets := 0
    aged_at := 0, next_age_at := 1000, limit := 100 }

/-- C2: REFUTED AS WRITTEN (code bug).  Ingesting `[(1,10), (2,20)]` into
an engine that already holds key 1: the source computes the filtered,
reversed list `new_entries_newest_first` (here `[(2,20)]`) but then hands
the unfiltered original list to the inner insert (line 297), so the batch
actually admitted is `[(1,10), (2,20)]` — not the filtered, reversed list
the claim prescribes — and the inner loop's `assert e.key not in data`
fails on the duplicate key 1 (an `AssertionError`). -/
theorem insert_entries_admits_unfiltered :
    admitted_batch exC2state [(1, 10), (2, 20)] = [(1, 10), (2, 20)] ∧
    new_entries_newest_first exC2state [(1, 10), (2, 20)] = [(2, 20)] ∧
    admitted_batch exC2state [(1, 10), (2, 20)] ≠
      new_entries_newest_first exC2state [(1, 10), (2, 20)] ∧
    (_insert_entries w0 exC2state [(1, 10), (2, 20)]).ok = false := by
  refine ⟨rfl, by decide, by decide, rfl⟩

/-- A corrupted engine state: the rings hold one entry while the index
holds two. -/
def exCorrupt : SizedLRUMapping :=
  { edenRing := [exEntry1], probRing := [], protRing := []
    dict := [(1, exEntry1), (2, exEntry2)]
    hits := 0, misses := 0, sets := 0
    aged_at := 0, next_age_at := 1000, limit := 100 }

/-- C3: REFUTED AS WRITTEN (code bug).  On a state where the ring total
(1) differs from the index total (2), `_get_entries_to_write` merely logs
a warning and returns `None` — it does not raise `CacheCorruptedError`
(the name does not even appear in the module) — and `write_to_stream`
then dumps the version marker and dies iterating `None` with a
`TypeError`, so the marker IS partial output. -/
theorem corrupt_export_returns_none :
    (exCorrupt.probRing ++ exCorrupt.protRing ++ exCorrupt.edenRing).length ≠
      exCorrupt.dict.length ∧
    _get_entries_to_write exCorrupt none = none ∧
    write_to_stream exCorrupt none =
      ([StreamFrame.ver _FILE_VERSION], Except.error PyErr.typeError) := by
  refine ⟨by decide, rfl, rfl⟩

/-- A consistent engine state with a single entry. -/
def exConsistent : SizedLRUMapping :=
  { edenRing := [exEntry1], probRing := [], protRing := []
    dict := [(1, exEntry1)]
    hits := 0, misses := 0, sets := 0
    aged_at := 0, next_age_at := 1000, limit := 100 }

/-- C4: REFUTED AS WRITTEN (code bug).  `write_to_stream` binds the
`(entries, byte_limit)` pair returned by `_get_entries_to_write` without
unpacking it and iterates over the pair, so even on a perfectly
consistent state the first loop iteration evaluates `entry.len` on the
entries list and raises `AttributeError` (`count_written` is also used
before assignment).  The call emits only the version marker — never a
`(key, value)` frame — and never produces a count, on every state and
every byte limit. -/
theorem write_to_stream_never_writes_entries :
    ((exConsistent.probRing ++ exConsistent.protRing ++
        exConsistent.edenRing).length = exConsistent.dict.length ∧
      write_to_stream exConsistent none =
        ([StreamFrame.ver _FILE_VERSION], Except.error PyErr.attributeError)) ∧
    ∀ s bl, (write_to_stream s bl).1 = [StreamFrame.ver _FILE_VERSION] ∧
      ∃ err, (write_to_stream s bl).2 = Except.error err := by
  refine ⟨⟨rfl, rfl⟩, fun s bl => ?_⟩
  cases h : _get_entries_to_write s bl <;>
    simp [write_to_stream, h]

/-- C5: the version check.  For every stream whose leading version marker
differs from `_FILE_VERSION` (5), `read_from_stream` raises `ValueError`
and the engine state is returned exactly as it was: the raise happens
before `_insert_entries`, so no entries are added and no counters are
modified. -/
theorem read_from_stream_version_mismatch (w : Nat → Nat → Nat)
    (s : SizedLRUMapping) (f : CacheStream) (h : f.version ≠ _FILE_VERSION) :
    read_from_stream w s f = (Except.error PyErr.valueError, s) := by
  simp [read_from_stream, h]

/-- Witness for C5 at a concrete mismatched stream (version 4). -/
theorem read_from_stream_version_mismatch_witness :
    (4 : Int) ≠ _FILE_VERSION ∧
    read_from_stream w0 (init 100) { version := 4, frames := [(1, 10)] } =
      (Except.error PyErr.valueError, init 100) :=
  ⟨by decide,
   read_from_stream_version_mismatch w0 (init 100)
     { version := 4, frames := [(1, 10)] } (by decide)⟩

/-- Updating an association list and then looking up: the updated key
reads back the new value, every other key is untouched. -/
theorem alget_alset {α : Type} (d : List (Nat × α)) (k : Nat) (v : α)
    (x : Nat) :
    alget (alset d k v) x = if k = x then some v else alget d x := by
  induction d with
  | nil =>
    by_cases hkx : k = x <;> simp [alset, alget, hkx]
  | cons p ps ih =>
    by_cases hp : p.1 = k
    · by_cases hkx : k = x <;> simp [alset, alget, hp, hkx]
    · by_cases hpx : p.1 = x
      · have hkx : ¬ k = x := fun h => hp (h ▸ hpx)
        have hxk : ¬ x = k := fun h => hkx h.symm
        simp [alset, alget, hp, hpx, hkx, hxk]
      · simp [alset, alget, hp, hpx, ih]

/-- The state for the C7 counterexample: one entry of weight 5, well
below the limit of 100; 1001 operations, never aged. -/
def exC7state : SizedLRUMapping :=
  { edenRing := [exEntry1], probRing := [], protRing := []
    dict := [(1, exEntry1)]
    hits := 0, misses := 1, sets := 1001
    aged_at := 0, next_age_at := 1000, limit := 100 }

/-- C7, counterexample to the claim as stated.  With `hits + sets = 1001 >
next_age_at = 1000` the ager is consulted; `operations - aged_at = 1001 ≥
age_period = 10` but the total weight (5) is below the limit (100), so the
run-condition of the claim fails — yet `_age` leaves `next_age_at` at
1000 instead of setting it to `age_period = 10` as the claim's
"otherwise" branch prescribes (the source returns from the `size < limit`
check without touching anything). -/
theorem age_otherwise_branch_cex :
    exC7state.hits + exC7state.sets > exC7state.next_age_at ∧
    ¬((((exC7state.hits + exC7state.sets : Nat) : Int) -
          (exC7state.aged_at : Int) <
        ((age_factor * exC7state.dict.length : Nat) : Int)) ∨
      exC7state.limit ≤ size exC7state) ∧
    (_age exC7state).next_age_at ≠ age_factor * exC7state.dict.length ∧
    _age exC7state = exC7state := by
  refine ⟨by decide, by decide, by decide, by decide⟩

/-- C7 as amended: after a mutating operation, when `operations = hits +
sets` exceeds `next_age_at`, the ager body runs; if `operations - aged_at
< age_period` (with `age_period = age_factor * |index|`) it only sets
`next_age_at = age_period`; if the period threshold is met but the total
weight is below the limit it changes nothing at all (`next_age_at` keeps
its old value); on successful ageing it halves all frequencies, sets
`aged_at = operations` and `next_age_at = ⌊1.5 * operations⌋`. -/
theorem age_behavior (s : SizedLRUMapping)
    (htrig : s.hits + s.sets > s.next_age_at) :
    ((((s.hits + s.sets : Nat) : Int) - (s.aged_at : Int) <
        ((age_factor * s.dict.length : Nat) : Int)) →
      _age s = { s with next_age_at := age_factor * s.dict.length }) ∧
    ((((age_factor * s.dict.length : Nat) : Int) ≤
        ((s.hits + s.sets : Nat) : Int) - (s.aged_at : Int)) →
      size s < s.limit → _age s = s) ∧
    ((((age_factor * s.dict.length : Nat) : Int) ≤
        ((s.hits + s.sets : Nat) : Int) - (s.aged_at : Int)) →
      s.limit ≤ size s →
      _age s = { age_lists s with
                   aged_at := s.hits + s.sets
                   next_age_at := (s.hits + s.sets) * 3 / 2 }) := by
  refine ⟨fun h1 => ?_, fun h2 hsz => ?_, fun h2 hsz => ?_⟩
  · unfold _age
    rw [if_pos h1]
  · unfold _age
    rw [if_neg (not_lt.mpr h2), if_pos hsz]
  · unfold _age
    rw [if_neg (not_lt.mpr h2), if_neg (not_lt.mpr hsz)]

/-- The state for the C7 witness: the period threshold is not yet met, so
`_age` resets the schedule to `age_period`. -/
def exC7w : SizedLRUMapping :=
  { edenRing := [exEntry1], probRing := [], protRing := []
    dict := [(1, exEntry1)]
    hits := 0, misses := 0, sets := 1001
    aged_at := 1000, next_age_at := 1000, limit := 100 }

/-- Witness for C7 (amended) at a concrete state: the trigger holds,
`operations - aged_at = 1 < age_period = 10`, and `_age` sets
`next_age_at` to 10. -/
theorem age_behavior_witness :
    exC7w.hits + exC7w.sets > exC7w.next_age_at ∧
    _age exC7w = { exC7w with next_age_at := age_factor * exC7w.dict.length } :=
  ⟨by decide, (age_behavior exC7w (by decide)).1 (by decide)⟩

/-- C9: the non-bubbling accessor.  `get` returns the stored value (or
nothing when the key is absent) and returns the engine state exactly as
it was — no frequency change, no ring movement, no counter change —
whereas `__getitem__` returns the value after incrementing the entry's
frequency by exactly one (still without touching the statistics
counters). -/
theorem get_is_pure (s : SizedLRUMapping) (k : Nat) :
    (alget s.dict k = none → (s.get k).1 = none) ∧
    (∀ e, alget s.dict k = some e → (s.get k).1 = some e.value) ∧
    (s.get k).2 = s ∧
    (∀ e, alget s.dict k = some e →
      ∃ s', getItem s k = Except.ok (e.value, s') ∧
        (alget s'.dict k).map (fun x => x.frequency) = some (e.frequency + 1) ∧
        s'.hits = s.hits ∧ s'.misses = s.misses ∧ s'.sets = s.sets) := by
  refine ⟨fun h => by simp [SizedLRUMapping.get, h],
    fun e he => by simp [SizedLRUMapping.get, he], rfl, fun e he => ?_⟩
  rcases e with ⟨ek, ev, el, ef, eg⟩
  cases eg
  case eden =>
    refine ⟨{ s with
        edenRing := ringReplace s.edenRing k ⟨ek, ev, el, ef + 1, Gen.eden⟩,
        dict := alset s.dict k ⟨ek, ev, el, ef + 1, Gen.eden⟩ },
      ?_, ?_, rfl, rfl, rfl⟩
    · simp only [getItem, he]
    · simp [alget_alset]
  case probation =>
    refine ⟨{ s with
        probRing := ringReplace s.probRing k ⟨ek, ev, el, ef + 1, Gen.probation⟩,
        dict := alset s.dict k ⟨ek, ev, el, ef + 1, Gen.probation⟩ },
      ?_, ?_, rfl, rfl, rfl⟩
    · simp only [getItem, he]
    · simp [alget_alset]
  case prot =>
    refine ⟨{ s with
        protRing := ringReplace s.protRing k ⟨ek, ev, el, ef + 1, Gen.prot⟩,
        dict := alset s.dict k ⟨ek, ev, el, ef + 1, Gen.prot⟩ },
      ?_, ?_, rfl, rfl, rfl⟩
    · simp only [getItem, he]
    · simp [alget_alset]

/-- Witness for C9 at a concrete state: key 1 is present with value 10
and frequency 1; `get` is pure and `__getitem__` bumps the frequency
to 2. -/
theorem get_is_pure_witness :
    (exConsistent.get 1).1 = some 10 ∧
    (exConsistent.get 1).2 = exConsistent ∧
    ∃ s', getItem exConsistent 1 = Except.ok (10, s') ∧
      (alget s'.dict 1).map (fun x => x.frequency) = some 2 ∧
      s'.hits = exConsistent.hits ∧ s'.misses = exConsistent.misses ∧
      s'.sets = exConsistent.sets := by
  have h := get_is_pure exConsistent 1
  exact ⟨h.2.1 exEntry1 rfl, h.2.2.1, h.2.2.2 exEntry1 rfl⟩

/-- `on_hit` never changes which value a key maps to: it only bumps a
frequency, retags a generation and reorders rings. -/
theorem on_hit_dv (s : SizedLRUMapping) (k x : Nat) :
    (alget (on_hit s k).dict x).map (fun e => e.value) =
      (alget s.dict x).map (fun e => e.value) := by
  unfold on_hit
  cases h : alget s.dict k with
  | none => rfl
  | some e =>
    rcases e with ⟨ek, ev, el, ef, eg⟩
    cases eg <;>
      · simp only [alget_alset]
        by_cases hkx : k = x
        · subst hkx
          simp [h]
        · simp [hkx]

/-- `on_hit` preserves key presence in the index. -/
theorem on_hit_isSome (s : SizedLRUMapping) (k x : Nat) :
    (alget (on_hit s k).dict x).isSome = (alget s.dict x).isSome := by
  have hdv := on_hit_dv s k x
  cases h1 : alget (on_hit s k).dict x <;> cases h2 : alget s.dict x <;>
    rw [h1, h2] at hdv <;> simp_all

/-- `on_hit` touches no statistics counter and no ageing field. -/
theorem on_hit_counters (s : SizedLRUMapping) (k : Nat) :
    (on_hit s k).hits = s.hits ∧ (on_hit s k).misses = s.misses ∧
    (on_hit s k).sets = s.sets ∧ (on_hit s k).next_age_at = s.next_age_at := by
  unfold on_hit
  cases h : alget s.dict k with
  | none => exact ⟨rfl, rfl, rfl, rfl⟩
  | some e =>
    rcases e with ⟨ek, ev, el, ef, eg⟩
    cases eg <;> exact ⟨rfl, rfl, rfl, rfl⟩

/-- The loop of `get_and_bubble_all` leaves every statistics counter and
the ageing schedule alone; only the final hit-or-miss accounting touches
them. -/
theorem gab_go_counters (ks : List Nat) (res : List (Nat × Nat))
    (s : SizedLRUMapping) :
    (gab_go ks res s).2.hits = s.hits ∧
    (gab_go ks res s).2.misses = s.misses ∧
    (gab_go ks res s).2.sets = s.sets ∧
    (gab_go ks res s).2.next_age_at = s.next_age_at := by
  induction ks generalizing res s with
  | nil => exact ⟨rfl, rfl, rfl, rfl⟩
  | cons k ks ih =>
    cases h : alget s.dict k with
    | none =>
      simp only [gab_go, h]
      exact ih res s
    | some e =>
      simp only [gab_go, h]
      obtain ⟨i1, i2, i3, i4⟩ := ih (alset res k e.value) (on_hit s k)
      obtain ⟨o1, o2, o3, o4⟩ := on_hit_counters s k
      exact ⟨i1.trans o1, i2.trans o2, i3.trans o3, i4.trans o4⟩

/-- What the loop of `get_and_bubble_all` accumulates: a key reads back
from `res` exactly when it was requested and present in the index, with
the stored value; otherwise whatever the accumulator already held. -/
theorem gab_go_res (ks : List Nat) (res : List (Nat × Nat))
    (s : SizedLRUMapping) (x : Nat) :
    alget (gab_go ks res s).1 x =
      if x ∈ ks ∧ (alget s.dict x).isSome then
        (alget s.dict x).map (fun e => e.value)
      else alget res x := by
  induction ks generalizing res s with
  | nil => simp [gab_go]
  | cons k ks ih =>
    cases h : alget s.dict k with
    | none =>
      simp only [gab_go, h]
      rw [ih]
      by_cases hx : x = k
      · subst hx
        simp [h]
      · simp [List.mem_cons, hx]
    | some e =>
      simp only [gab_go, h]
      rw [ih, on_hit_isSome, on_hit_dv, alget_alset]
      by_cases hx : x = k
      · subst hx
        simp [h]
      · have hkx : ¬ k = x := fun hh => hx hh.symm
        simp [List.mem_cons, hx, hkx]

/-- A dict update is never empty. -/
theorem alset_ne_nil {α : Type} (d : List (Nat × α)) (k : Nat) (v : α) :
    alset d k v ≠ [] := by
  cases d with
  | nil => simp [alset]
  | cons p ps =>
    simp only [alset]
    split <;> simp

/-- The loop's accumulator comes back empty exactly when it started empty
and no requested key was present. -/
theorem gab_go_nil_iff (ks : List Nat) (res : List (Nat × Nat))
    (s : SizedLRUMapping) :
    (gab_go ks res s).1 = [] ↔
      (res = [] ∧ ∀ k ∈ ks, alget s.dict k = none) := by
  induction ks generalizing res s with
  | nil => simp [gab_go]
  | cons k ks ih =>
    cases h : alget s.dict k with
    | none =>
      simp only [gab_go, h]
      rw [ih]
      constructor
      · rintro ⟨hr, hall⟩
        refine ⟨hr, fun j hj => ?_⟩
        rcases List.mem_cons.mp hj with hj | hj
        · exact hj ▸ h
        · exact hall j hj
      · rintro ⟨hr, hall⟩
        exact ⟨hr, fun j hj => hall j (List.mem_cons_of_mem k hj)⟩
    | some e =>
      simp only [gab_go, h]
      rw [ih]
      constructor
      · rintro ⟨hr, _⟩
        exact absurd hr (alset_ne_nil res k e.value)
      · rintro ⟨-, hall⟩
        exact absurd h (by simp [hall k (List.mem_cons_self k ks)])

/-- C6: every call to `get_and_bubble_all` bumps `hits + misses` by
exactly one: `hits` when at least one requested key is present in the
index, `misses` otherwise; and the returned mapping holds exactly the
requested keys that were present, each with its stored value. -/
theorem get_and_bubble_all_spec (s : SizedLRUMapping) (keys : List Nat) :
    ((get_and_bubble_all s keys).2.hits + (get_and_bubble_all s keys).2.misses
        = s.hits + s.misses + 1) ∧
    ((∃ k ∈ keys, (alget s.dict k).isSome) →
        (get_and_bubble_all s keys).2.hits = s.hits + 1 ∧
        (get_and_bubble_all s keys).2.misses = s.misses) ∧
    ((∀ k ∈ keys, alget s.dict k = none) →
        (get_and_bubble_all s keys).2.misses = s.misses + 1 ∧
        (get_and_bubble_all s keys).2.hits = s.hits) ∧
    (∀ x, alget (get_and_bubble_all s keys).1 x =
        if x ∈ keys then (alget s.dict x).map (fun e => e.value) else none) := by
  obtain ⟨g1, g2, g3, g4⟩ := gab_go_counters keys [] s
  by_cases hemp : (gab_go keys [] s).1 = []
  · have hall : ∀ k ∈ keys, alget s.dict k = none :=
      ((gab_go_nil_iff keys [] s).mp hemp).2
    have heq : get_and_bubble_all s keys =
        ((gab_go keys [] s).1,
         { (gab_go keys [] s).2 with
             misses := (gab_go keys [] s).2.misses + 1 }) := by
      unfold get_and_bubble_all
      rw [if_pos hemp]
    refine ⟨?_, ?_, ?_, ?_⟩
    · rw [heq]
      simp only [g1, g2]
      omega
    · rintro ⟨k, hk, hsome⟩
      have := hall k hk
      rw [this] at hsome
      simp at hsome
    · intro _
      rw [heq]
      exact ⟨by simp [g2], by simp [g1]⟩
    · intro x
      rw [heq]
      show alget (gab_go keys [] s).1 x = _
      rw [hemp]
      by_cases hx : x ∈ keys
      · simp [alget, hx, hall x hx]
      · simp [alget, hx]
  · have hex : ∃ k ∈ keys, (alget s.dict k).isSome = true := by
      have hnall : ¬ ∀ k ∈ keys, alget s.dict k = none := by
        intro hall
        exact hemp ((gab_go_nil_iff keys [] s).mpr ⟨rfl, hall⟩)
      push_neg at hnall
      obtain ⟨k, hk, hne⟩ := hnall
      exact ⟨k, hk, Option.ne_none_iff_isSome.mp hne⟩
    have heq : get_and_bubble_all s keys =
        ((gab_go keys [] s).1,
         { (gab_go keys [] s).2 with
             hits := (gab_go keys [] s).2.hits + 1 }) := by
      unfold get_and_bubble_all
      rw [if_neg hemp]
    refine ⟨?_, ?_, ?_, ?_⟩
    · rw [heq]
      simp only [g1, g2]
      omega
    · intro _
      rw [heq]
      exact ⟨by simp [g1], by simp [g2]⟩
    · intro hall
      obtain ⟨k, hk, hsome⟩ := hex
      have := hall k hk
      rw [this] at hsome
      simp at hsome
    · intro x
      rw [heq]
      show alget (gab_go keys [] s).1 x = _
      rw [gab_go_res keys [] s x]
      by_cases hx : x ∈ keys
      · by_cases hs : (alget s.dict x).isSome = true
        · simp [hx, hs]
        · have hnone : alget s.dict x = none := by
            cases h : alget s.dict x
            · rfl
            · rw [h] at hs
              simp at hs
          simp [alget, hx, hs, hnone]
      · simp [alget, hx]

/-- Witness for C6 at a concrete state and key list: one of the two
requested keys (1 and 3) is present, so the call counts one hit and
returns exactly key 1 with value 10. -/
theorem get_and_bubble_all_spec_witness :
    ((get_and_bubble_all exConsistent [1, 3]).2.hits +
        (get_and_bubble_all exConsistent [1, 3]).2.misses
      = exConsistent.hits + exConsistent.misses + 1) ∧
    (get_and_bubble_all exConsistent [1, 3]).2.hits = exConsistent.hits + 1 ∧
    alget (get_and_bubble_all exConsistent [1, 3]).1 1 = some 10 ∧
    alget (get_and_bubble_all exConsistent [1, 3]).1 3 = none := by
  have h := get_and_bubble_all_spec exConsistent [1, 3]
  refine ⟨h.1, (h.2.1 ⟨1, by decide, by decide⟩).1, ?_, ?_⟩
  · rw [h.2.2.2 1]
    decide
  · rw [h.2.2.2 3]
    decide

/-- The byte-limited walk only ever collects a prefix of the list it
walks. -/
theorem take_under_limit_prefix (b : Nat) :
    ∀ (l : List Entry) (acc : Nat), take_under_limit b acc l <+: l := by
  intro l
  induction l with
  | nil =>
    intro acc
    simp [take_under_limit]
  | cons e es ih =>
    intro acc
    rw [take_under_limit]
    split
    · exact List.nil_prefix
    · exact (List.cons_prefix_cons).mpr ⟨rfl, ih (acc + e.len)⟩

/-- The byte-limited walk never exceeds the budget: starting from an
accumulated weight within the budget, the collected weight stays within
it. -/
theorem take_under_limit_sum (b : Nat) :
    ∀ (l : List Entry) (acc : Nat), acc ≤ b →
      acc + (((take_under_limit b acc l).map (fun e => e.len)).sum) ≤ b := by
  intro l
  induction l with
  | nil =>
    intro acc h
    simpa [take_under_limit]
  | cons e es ih =>
    intro acc h
    rw [take_under_limit]
    split
    · simpa
    · rename_i hfit
      have hfit' : acc + e.len ≤ b := by omega
      have := ih (acc + e.len) hfit'
      simp only [List.map_cons, List.sum_cons]
      omega

/-- C8: with a positive `byte_limit`, export walks the ascending-frequency
sort from the highest-frequency end, stops just before the accumulated
weight would exceed the budget, and reverses the collected slice: the
result is the returned entry list, its total weight is at most
`byte_limit`, it is in ascending-frequency order, and it is a suffix (the
highest-frequency end) of the full ascending-frequency sort of the ring
contents. -/
theorem entries_to_write_byte_limit (s : SizedLRUMapping) (b : Nat)
    (hb : 0 < b)
    (hcons : (s.probRing ++ s.protRing ++ s.edenRing).length = s.dict.length) :
    ∃ es, _get_entries_to_write s (some b) = some (es, b) ∧
      (es.map (fun e => e.len)).sum ≤ b ∧
      List.Sorted freqLe es ∧
      es <:+ List.insertionSort freqLe
        (s.probRing ++ s.protRing ++ s.edenRing) := by
  have hb0 : ¬ b = 0 := Nat.pos_iff_ne_zero.mp hb
  refine ⟨(take_under_limit b 0
      ((List.insertionSort freqLe
        (s.probRing ++ s.protRing ++ s.edenRing)).reverse)).reverse,
    ?_, ?_, ?_, ?_⟩
  · simp only [_get_entries_to_write]
    rw [if_neg (fun h => h hcons), if_neg hb0]
  · have := take_under_limit_sum b
      ((List.insertionSort freqLe
        (s.probRing ++ s.protRing ++ s.edenRing)).reverse) 0 (Nat.zero_le b)
    simpa [List.map_reverse, List.sum_reverse] using this
  · have hsuf : (take_under_limit b 0
        ((List.insertionSort freqLe
          (s.probRing ++ s.protRing ++ s.edenRing)).reverse)).reverse <:+
        List.insertionSort freqLe (s.probRing ++ s.protRing ++ s.edenRing) := by
      obtain ⟨t, ht⟩ := take_under_limit_prefix b
        ((List.insertionSort freqLe
          (s.probRing ++ s.protRing ++ s.edenRing)).reverse) 0
      refine ⟨t.reverse, ?_⟩
      have hrev := congrArg List.reverse ht
      simpa [List.reverse_append] using hrev
    exact List.Pairwise.sublist hsuf.sublist
      (List.sorted_insertionSort freqLe _)
  · obtain ⟨t, ht⟩ := take_under_limit_prefix b
      ((List.insertionSort freqLe
        (s.probRing ++ s.protRing ++ s.edenRing)).reverse) 0
    refine ⟨t.reverse, ?_⟩
    have hrev := congrArg List.reverse ht
    simpa [List.reverse_append] using hrev

/-- The state for the C8 witness: two consistent entries, frequencies 1
and 2, weights 5 and 4, exported under a byte limit of 5. -/
def exC8state : SizedLRUMapping :=
  { edenRing := [exEntry1], probRing := [exEntry2], protRing := []
    dict := [(1, exEntry1), (2, exEntry2)]
    hits := 0, misses := 0, sets := 0
    aged_at := 0, next_age_at := 1000, limit := 100 }

/-- Witness for C8 at a concrete state: under the byte limit 5 only the
highest-frequency entry (weight 4) fits; the export returns it with total
weight within the budget, sorted and as a suffix of the full sort. -/
theorem entries_to_write_byte_limit_witness :
    (0 < 5 ∧
      (exC8state.probRing ++ exC8state.protRing ++
        exC8state.edenRing).length = exC8state.dict.length) ∧
    ∃ es, _get_entries_to_write exC8state (some 5) = some (es, 5) ∧
      (es.map (fun e => e.len)).sum ≤ 5 ∧
      List.Sorted freqLe es ∧
      es <:+ List.insertionSort freqLe
        (exC8state.probRing ++ exC8state.protRing ++ exC8state.edenRing) :=
  ⟨⟨by decide, by decide⟩,
   entries_to_write_byte_limit exC8state 5 (by decide) (by decide)⟩

/-- The core of `__setitem__` leaves `hits`, `misses` and the ageing
schedule alone and bumps `sets` by exactly one. -/
theorem setItemCore_counts (w : Nat → Nat → Nat) (s : SizedLRUMapping)
    (k v : Nat) :
    (setItemCore w s k v).hits = s.hits ∧
    (setItemCore w s k v).misses = s.misses ∧
    (setItemCore w s k v).sets = s.sets + 1 ∧
    (setItemCore w s k v).next_age_at = s.next_age_at := by
  unfold setItemCore update_MRU
  cases h : alget s.dict k with
  | none => exact ⟨rfl, rfl, rfl, rfl⟩
  | some e =>
    rcases e with ⟨ek, ev, el, ef, eg⟩
    cases eg <;> exact ⟨rfl, rfl, rfl, rfl⟩

/-- One `get_and_bubble_all` call grows `hits + sets` by at most one and
never touches the ageing schedule. -/
theorem bubble_trace_bound (s : SizedLRUMapping) (keys : List Nat) :
    (get_and_bubble_all s keys).2.hits + (get_and_bubble_all s keys).2.sets
      ≤ s.hits + s.sets + 1 ∧
    (get_and_bubble_all s keys).2.next_age_at = s.next_age_at := by
  obtain ⟨g1, g2, g3, g4⟩ := gab_go_counters keys [] s
  unfold get_and_bubble_all
  split
  · refine ⟨?_, ?_⟩
    · show (gab_go keys [] s).2.hits + (gab_go keys [] s).2.sets ≤ _
      omega
    · show (gab_go keys [] s).2.next_age_at = _
      exact g4
  · refine ⟨?_, ?_⟩
    · show (gab_go keys [] s).2.hits + 1 + (gab_go keys [] s).2.sets ≤ _
      omega
    · show (gab_go keys [] s).2.next_age_at = _
      exact g4

/-- An operation of the engine's public mutating/look-up surface, as used
to trace a fresh engine (deletion touches neither `hits` nor `sets` nor
the schedule and is irrelevant to the ageing check). -/
inductive Op
| doSet (k v : Nat)
| doBubble (keys : List Nat)

/-- Run one operation against the engine. -/
def runOp (w : Nat → Nat → Nat) (s : SizedLRUMapping) : Op → SizedLRUMapping
  | Op.doSet k v => setItem w s k v
  | Op.doBubble keys => (get_and_bubble_all s keys).2

/-- Run a sequence of operations left to right. -/
def run (w : Nat → Nat → Nat) (ops : List Op) (s : SizedLRUMapping) :
    SizedLRUMapping :=
  ops.foldl (runOp w) s

/-- While `hits + sets` stays at most 1000, a trace keeps
`next_age_at = 1000` (no set ever fires the check) and `hits + sets`
grows by at most one per operation. -/
theorem run_invariant (w : Nat → Nat → Nat) :
    ∀ (ops : List Op) (s : SizedLRUMapping) (n : Nat),
      s.hits + s.sets ≤ n → s.next_age_at = 1000 → n + ops.length ≤ 1000 →
      (run w ops s).hits + (run w ops s).sets ≤ n + ops.length ∧
      (run w ops s).next_age_at = 1000 := by
  intro ops
  induction ops with
  | nil =>
    intro s n h1 h2 _
    exact ⟨by simpa [run] using h1, by simpa [run] using h2⟩
  | cons op ops ih =>
    intro s n h1 h2 hlen
    have hrun : run w (op :: ops) s = run w ops (runOp w s op) := by
      simp [run]
    have hstep : (runOp w s op).hits + (runOp w s op).sets ≤ n + 1 ∧
        (runOp w s op).next_age_at = 1000 := by
      cases op with
      | doSet k v =>
        obtain ⟨c1, c2, c3, c4⟩ := setItemCore_counts w s k v
        have hfalse : set_consults_age w s k v = false := by
          simp only [set_consults_age, decide_eq_false_iff_not, not_lt]
          rw [c1, c3, c4, h2]
          simp only [List.length_cons] at hlen
          omega
        have hset : runOp w s (Op.doSet k v) = setItemCore w s k v := by
          simp [runOp, setItem, hfalse]
        rw [hset, c1, c3, c4]
        exact ⟨by omega, h2⟩
      | doBubble keys =>
        obtain ⟨b1, b2⟩ := bubble_trace_bound s keys
        exact ⟨by simpa [runOp] using b1.trans (by omega),
          by simpa [runOp] using b2.trans h2⟩
    rw [hrun]
    have hlen' : (n + 1) + ops.length ≤ 1000 := by
      simp only [List.length_cons] at hlen
      omega
    have hrec := ih (runOp w s op) (n + 1) hstep.1 hstep.2 hlen'
    refine ⟨hrec.1.trans ?_, hrec.2⟩
    simp only [List.length_cons]
    omega

/-- C10: `reset_stats` zeroes `hits`, `misses`, `sets`, `aged_at` and sets
`next_age_at` to 0, while a fresh engine starts with `next_age_at =
1000`; hence the very next set after `reset_stats` already consults the
ageing check (its `hits + sets = 1 > 0`), whereas on a fresh engine no
set within the first 1000 operations ever does (after at most 999 prior
operations, the next set sees `hits + sets ≤ 1000`, not above 1000). -/
theorem reset_stats_ageing_schedule (L : Nat) (s : SizedLRUMapping)
    (w : Nat → Nat → Nat) (k v : Nat) (ops : List Op)
    (hops : ops.length ≤ 999) :
    ((reset_stats s).hits = 0 ∧ (reset_stats s).misses = 0 ∧
      (reset_stats s).sets = 0 ∧ (reset_stats s).aged_at = 0 ∧
      (reset_stats s).next_age_at = 0) ∧
    (init L).next_age_at = 1000 ∧
    set_consults_age w (reset_stats s) k v = true ∧
    set_consults_age w (run w ops (init L)) k v = false := by
  refine ⟨⟨rfl, rfl, rfl, rfl, rfl⟩, rfl, ?_, ?_⟩
  · obtain ⟨c1, c2, c3, c4⟩ := setItemCore_counts w (reset_stats s) k v
    simp only [set_consults_age, decide_eq_true_eq]
    rw [c1, c3, c4]
    show (0 : Nat) + (0 + 1) > 0
    omega
  · have hinv := run_invariant w ops (init L) 0 (Nat.le_refl 0) rfl
      (by omega)
    obtain ⟨c1, c2, c3, c4⟩ := setItemCore_counts w (run w ops (init L)) k v
    simp only [set_consults_age, decide_eq_false_iff_not, not_lt]
    rw [c1, c3, c4, hinv.2]
    have := hinv.1
    omega

/-- Witness for C10 at a concrete instantiation: limit 7, an engine built
as `init 3`, the empty trace, key 1, value 2. -/
theorem reset_stats_ageing_schedule_witness :
    ([] : List Op).length ≤ 999 ∧
    (((reset_stats (init 3)).hits = 0 ∧ (reset_stats (init 3)).misses = 0 ∧
      (reset_stats (init 3)).sets = 0 ∧ (reset_stats (init 3)).aged_at = 0 ∧
      (reset_stats (init 3)).next_age_at = 0) ∧
    (init 7).next_age_at = 1000 ∧
    set_consults_age w0 (reset_stats (init 3)) 1 2 = true ∧
    set_consults_age w0 (run w0 [] (init 7)) 1 2 = false) :=
  ⟨by decide, reset_stats_ageing_schedule 7 (init 3) w0 1 2 [] (by decide)⟩
